import Mathlib

/-
Verification of the caption-segmentation core, the text renderer and the
agent tool wrappers of the youtube-transcript-adk repository.

The embedding follows `youtube_transcript_adk/transcriptor.py` and
`youtube_transcript_adk/agent.py`.  Caption times (Python floats) are
modelled as rationals; Python integer/float floor division `a // b` is
modelled as `⌊a / b⌋`, raising `ZeroDivisionError` when the divisor is 0;
Python exceptions are modelled with `Except PyError`.
-/

namespace YT

/-- A caption cue as delivered by the caption source:
`{'text': ..., 'start': ..., 'duration': ...}`. -/
structure Cue where
  text : String
  start : ℚ
  duration : ℚ
deriving DecidableEq

/-- A segment dictionary as built by `get_transcript_by_segments`:
`{"start": ..., "text": ..., "end": ...}` (field `end` is a Lean keyword,
rendered here as `segEnd`). -/
structure Segment where
  start : ℚ
  text : String
  segEnd : ℚ
deriving DecidableEq

/-- Python exceptions that the modelled code can raise or catch. -/
inductive PyError where
  | valueError (msg : String)
  | zeroDivisionError
  | transcriptsDisabled (msg : String)
  | noTranscriptFound (msg : String)
  | genericError (msg : String)
deriving DecidableEq

/-- The message of a Python exception, as `str(e)` would produce it. -/
def pyErrStr : PyError → String
  | PyError.valueError m => m
  | PyError.zeroDivisionError => "integer division or modulo by zero"
  | PyError.transcriptsDisabled m => m
  | PyError.noTranscriptFound m => m
  | PyError.genericError m => m

/-- The scan loop of `YouTubeTranscriptor.get_transcript_by_segments`
(transcriptor.py lines 145-172), processing the remaining cues given the
accumulated `segments` list and the in-progress `current_segment`.
`item_end = item_start + item['duration']` in the source is computed but
never used, so it is not modelled.  Python raises `ZeroDivisionError` at
`item_start // segment_length` when `segment_length = 0`. -/
def buildSegments (L : ℤ) : List Cue → List Segment → Segment → Except PyError (List Segment)
  | [], segs, cur => Except.ok (if cur.text ≠ ("") then segs ++ [cur] else segs)
  | c :: cs, segs, cur =>
    if c.start < cur.segEnd then
      buildSegments L cs segs { cur with text := cur.text ++ (" ") ++ c.text }
    else if L = 0 then
      Except.error PyError.zeroDivisionError
    else
      buildSegments L cs (if cur.text ≠ ("") then segs ++ [cur] else segs)
        { start := (Rat.floor (c.start / (L:ℚ)) : ℚ) * (L:ℚ)
          text := c.text
          segEnd := (Rat.floor (c.start / (L:ℚ)) : ℚ) * (L:ℚ) + (L:ℚ) }

/-- The pure segmentation performed by
`YouTubeTranscriptor.get_transcript_by_segments` on an already-fetched
transcript: `current_segment` starts as `{"start": 0, "text": "", "end":
segment_length}` and the cues are scanned once left to right. -/
def get_transcript_by_segments (transcript : List Cue) (segment_length : ℤ) :
    Except PyError (List Segment) :=
  buildSegments segment_length transcript []
    { start := 0, text := "", segEnd := (segment_length : ℚ) }

/-- An input record of `get_transcript_text`: any dictionary exposing
`'text'` and `'start'` (both raw cues and built segments qualify). -/
structure TextItem where
  text : String
  start : ℚ
deriving DecidableEq

/-- View of a cue as a renderable item. -/
def cueItem (c : Cue) : TextItem :=
  { text := c.text, start := c.start }

/-- View of a segment as a renderable item. -/
def segItem (s : Segment) : TextItem :=
  { text := s.text, start := s.start }

/-- The hour/minute/second fields of a `time.struct_time`. -/
structure TmStruct where
  tm_hour : ℕ
  tm_min : ℕ
  tm_sec : ℕ
deriving DecidableEq

/-- Model of `time.gmtime` restricted to the fields used by the format
string `'%H:%M:%S'`: the argument is floored to an integer number of
seconds by the caller; the H/M/S fields are those of the time of day in
UTC, i.e. of `t mod 86400` (non-negative). -/
def gmtime (t : ℤ) : TmStruct :=
  { tm_hour := (Int.emod t 86400).toNat / 3600
    tm_min := (Int.emod t 86400).toNat / 60 % 60
    tm_sec := (Int.emod t 86400).toNat % 60 }

/-- Zero-padded two-digit rendering used by `strftime` for `%H`, `%M`, `%S`. -/
def two_digit (n : ℕ) : String :=
  if n < 10 then ("0") ++ toString n else toString n

/-- Model of `time.strftime('%H:%M:%S', tm)`. -/
def strftimeHMS (tm : TmStruct) : String :=
  two_digit tm.tm_hour ++ (":") ++ two_digit tm.tm_min ++ (":") ++ two_digit tm.tm_sec

/-- Model of `YouTubeTranscriptor.get_transcript_text` (transcriptor.py
lines 107-127): with timestamps, each item becomes the line
`[timestamp] text` with `timestamp = strftime('%H:%M:%S',
gmtime(item['start']))`, joined by newlines; without, the texts are
joined by single spaces. -/
def get_transcript_text (transcript : List TextItem) (include_timestamps : Bool) : String :=
  if include_timestamps then
    String.intercalate ("\n") (transcript.map fun item =>
      ("[") ++ strftimeHMS (gmtime (Rat.floor item.start)) ++ ("] ") ++ item.text)
  else
    String.intercalate (" ") (transcript.map fun item => item.text)

/-- Renderer written from the specification's words (Scenario E and §4.2):
format `start` as zero-padded `HH:MM:SS` using the integer-seconds floor
of `start` wrapped modulo 24 hours, prefix as `[HH:MM:SS] text`, join
lines with a newline. -/
def render_timestamps_spec (items : List TextItem) : String :=
  String.intercalate ("\n") (items.map fun it =>
    ("[") ++ two_digit ((Int.emod ⌊it.start⌋ 86400).toNat / 3600)
      ++ (":") ++ two_digit ((Int.emod ⌊it.start⌋ 86400).toNat % 3600 / 60)
      ++ (":") ++ two_digit ((Int.emod ⌊it.start⌋ 86400).toNat % 60)
      ++ ("] ") ++ it.text)

/-- A video record produced by `YouTubeSearch.search_videos`. -/
structure Video where
  id : String
  title : String
  description : String
  published_at : String
  channel_id : String
  channel_title : String
  thumbnail_url : String
  video_url : String
deriving DecidableEq

/-- A Python value appearing in the dictionaries the agent tools return. -/
inductive PyVal where
  | str (s : String)
  | int (n : ℤ)
  | boolVal (b : Bool)
  | cueList (l : List Cue)
  | segList (l : List Segment)
  | videoList (l : List Video)

/-- A Python dictionary with string keys, in insertion order. -/
def PyDict := List (String × PyVal)

/-- The error dictionary built by every `except` branch in agent.py. -/
def errorDict (msg : String) : PyDict :=
  [(("status"), PyVal.str ("error")), (("error_message"), PyVal.str msg)]

/-- Agent tool `get_transcript` (agent.py lines 11-53).  The collaborator
calls `extract_video_id` and `YouTubeTranscriptor.get_transcript` are
modelled by their outcomes `extract` and `fetch`; any exception is caught
by the surrounding `except Exception` and turned into an error dict. -/
def agent_get_transcript (extract : Except PyError String)
    (fetch : Except PyError (List Cue)) (language : String) : PyDict :=
  match extract with
  | Except.error e => errorDict (("字幕の取得に失敗しました: ") ++ pyErrStr e)
  | Except.ok video_id =>
    match fetch with
    | Except.error e => errorDict (("字幕の取得に失敗しました: ") ++ pyErrStr e)
    | Except.ok transcript_data =>
      let sample_lines := transcript_data.take 5
      let total_lines := transcript_data.length
      let text_content := get_transcript_text (transcript_data.map cueItem) false
      let text_content :=
        if text_content.length > 1000 then text_content.take 1000 ++ ("...(続きは省略)...")
        else text_content
      [(("status"), PyVal.str ("success")),
       (("video_id"), PyVal.str video_id),
       (("language"), PyVal.str language),
       (("total_lines"), PyVal.int total_lines),
       (("sample_lines"), PyVal.cueList sample_lines),
       (("text_content"), PyVal.str text_content)]

/-- Agent tool `get_transcript_by_segments` (agent.py lines 55-91): after
`extract_video_id` and the transcript fetch, the fetched cues are
segmented; any raised exception (including `ZeroDivisionError` from the
segmentation) is caught and becomes an error dict. -/
def agent_get_transcript_by_segments (extract : Except PyError String)
    (fetch : Except PyError (List Cue)) (language : String) (segment_length : ℤ) : PyDict :=
  match extract with
  | Except.error e => errorDict (("セグメント化字幕の取得に失敗しました: ") ++ pyErrStr e)
  | Except.ok video_id =>
    match fetch with
    | Except.error e => errorDict (("セグメント化字幕の取得に失敗しました: ") ++ pyErrStr e)
    | Except.ok transcript_data =>
      match get_transcript_by_segments transcript_data segment_length with
      | Except.error e => errorDict (("セグメント化字幕の取得に失敗しました: ") ++ pyErrStr e)
      | Except.ok segments =>
        [(("status"), PyVal.str ("success")),
         (("video_id"), PyVal.str video_id),
         (("language"), PyVal.str language),
         (("segment_length"), PyVal.int segment_length),
         (("total_segments"), PyVal.int segments.length),
         (("sample_segments"), PyVal.segList (segments.take 3))]

/-- Agent tool `search_youtube_videos` (agent.py lines 95-134).  The
`YouTubeSearch` construction and `search_videos` call are modelled by
their combined outcome `search`; exceptions become an error dict. -/
def agent_search_youtube_videos (search : Except PyError (List Video × Option String)) : PyDict :=
  match search with
  | Except.error e => errorDict (("動画の検索に失敗しました: ") ++ pyErrStr e)
  | Except.ok (videos, next_page_token) =>
    let sample_videos := if videos.length > 5 then videos.take 5 else videos
    [(("status"), PyVal.str ("success")),
     (("total_results"), PyVal.int videos.length),
     (("sample_videos"), PyVal.videoList sample_videos),
     (("has_more"), PyVal.boolVal next_page_token.isSome)]

/-- A tool result is well formed when its `status` entry is `"success"`,
or is `"error"` and an `error_message` entry is present. -/
def wellFormedResult (d : PyDict) : Prop :=
  List.lookup ("status") d = some (PyVal.str ("success")) ∨
    (List.lookup ("status") d = some (PyVal.str ("error")) ∧
      ∃ m, List.lookup ("error_message") d = some (PyVal.str m))

/-- Left fold appending `" " + text` for each cue, as the absorb branch of
the scan does; used to describe segment texts. -/
def appendTexts : List Cue → String → String
  | [], acc => acc
  | c :: cs, acc => appendTexts cs (acc ++ (" ") ++ c.text)

/-- The strings `ts` occur disjointly, in order, inside `s`. -/
def textsInOrder : List String → String → Prop
  | [], _ => True
  | t :: ts, s => ∃ p q, s = p ++ t ++ q ∧ textsInOrder ts q

/-- The coverage property of spec §8 P3 for a produced segment list: the
cues split into consecutive non-empty blocks, one per output segment in
order, and each block's texts appear in order inside its segment's text. -/
def CoverageWitness (ts : List Cue) (segs : List Segment) (blocks : List (List Cue)) : Prop :=
  blocks.flatten = ts ∧ (∀ b ∈ blocks, b ≠ []) ∧
    List.Forall₂ (fun b s => textsInOrder (b.map Cue.text) (Segment.text s)) blocks segs

/-- The coverage claim for an input: segmentation succeeds and some block
decomposition witnesses that every cue's text lands, in input order, in
exactly one output segment. -/
def CoverageHolds (ts : List Cue) (L : ℤ) : Prop :=
  ∃ segs blocks, get_transcript_by_segments ts L = Except.ok segs ∧
    CoverageWitness ts segs blocks

lemma ratFloor_eq (q : ℚ) : Rat.floor q = ⌊q⌋ :=
  le_antisymm (Int.le_floor.mpr (Rat.le_floor.mp le_rfl)) (Rat.le_floor.mpr (Int.floor_le q))

lemma str_space_ne_empty (a b : String) : a ++ (" ") ++ b ≠ ("") := by
  intro h
  have hl := congrArg String.length h
  rw [String.length_append, String.length_append] at hl
  have h1 : String.length (" ") = 1 := rfl
  have h2 : String.length ("") = 0 := rfl
  omega

lemma appendTexts_append (xs ys : List Cue) (acc : String) :
    appendTexts (xs ++ ys) acc = appendTexts ys (appendTexts xs acc) := by
  induction xs generalizing acc with
  | nil => rfl
  | cons c cs ih => simp [appendTexts, ih]

lemma appendTexts_acc (cs : List Cue) (acc : String) :
    ∃ t, appendTexts cs acc = acc ++ t := by
  induction cs generalizing acc with
  | nil => exact ⟨(""), (String.append_empty acc).symm⟩
  | cons c cs ih =>
    obtain ⟨t, ht⟩ := ih (acc ++ (" ") ++ c.text)
    refine ⟨(" ") ++ c.text ++ t, ?_⟩
    rw [appendTexts, ht]
    simp [String.append_assoc]

lemma textsInOrder_left (ts : List String) (x s : String) (h : textsInOrder ts s) :
    textsInOrder ts (x ++ s) := by
  cases ts with
  | nil => trivial
  | cons t ts =>
    obtain ⟨p, q, h1, h2⟩ := h
    refine ⟨x ++ p, q, ?_, h2⟩
    rw [h1]
    simp [String.append_assoc]

lemma textsInOrder_append (as bs : List String) (s r : String)
    (h1 : textsInOrder as s) (h2 : textsInOrder bs r) :
    textsInOrder (as ++ bs) (s ++ r) := by
  induction as generalizing s with
  | nil => simpa using textsInOrder_left bs s r h2
  | cons a as ih =>
    obtain ⟨p, q, hs, hq⟩ := h1
    refine ⟨p, q ++ r, ?_, ih q hq⟩
    rw [hs]
    simp [String.append_assoc]

lemma textsInOrder_single (t x : String) : textsInOrder [t] (x ++ t) := by
  refine ⟨x, (""), ?_, trivial⟩
  simp [String.append_empty]

lemma floor_div_ge (L k : ℤ) (a : ℚ) (hL : 0 < L) (h : (k:ℚ) * (L:ℚ) ≤ a) :
    k ≤ Rat.floor (a / (L:ℚ)) := by
  have hL' : (0:ℚ) < (L:ℚ) := by exact_mod_cast hL
  rw [ratFloor_eq, Int.le_floor, le_div_iff₀ hL']
  exact h

lemma floor_grid (L k : ℤ) (r : ℚ) (hL : 0 < L) (hr : 0 ≤ r) (hrL : r < (L:ℚ)) :
    Rat.floor (((k:ℚ) * (L:ℚ) + r) / (L:ℚ)) = k := by
  have hL' : (0:ℚ) < (L:ℚ) := by exact_mod_cast hL
  rw [ratFloor_eq, add_div, mul_div_cancel_right₀ _ (ne_of_gt hL'), Int.floor_int_add]
  have h0 : ⌊r / (L:ℚ)⌋ = 0 := by
    rw [Int.floor_eq_zero_iff]
    constructor
    · positivity
    · rw [div_lt_one hL']
      exact hrL
  omega

/-- C1 counterexample: on Scenario A's cues with segment length 5 the code
does not return the spec's second segment text `" c"`: the segment opened
by cue `c` has text `"c"` with no leading space. -/
theorem C1_counterexample :
    get_transcript_by_segments
        [{ text := ("a"), start := 0, duration := 2 },
         { text := ("b"), start := 3, duration := 1 },
         { text := ("c"), start := 12, duration := 1 }] 5 ≠
      Except.ok [{ start := 0, text := (" a b"), segEnd := 5 },
                 { start := 10, text := (" c"), segEnd := 15 }] := by
  have h0 : get_transcript_by_segments
      [{ text := ("a"), start := 0, duration := 2 },
       { text := ("b"), start := 3, duration := 1 },
       { text := ("c"), start := 12, duration := 1 }] 5 =
      Except.ok [{ start := 0, text := (" a b"), segEnd := 5 },
                 { start := 10, text := ("c"), segEnd := 15 }] := by
    norm_num [get_transcript_by_segments, buildSegments, ratFloor_eq]
    decide
  rw [h0]
  intro hcontra
  exact absurd (Except.ok.inj hcontra) (by decide)

/-- C1 (amended): on Scenario A's cues with segment length 5 the
segmentation returns exactly `[{start 0, end 5, text " a b"},
{start 10, end 15, text "c"}]`; the first segment's text carries a leading
space, the second one's does not. -/
theorem C1_scenarioA :
    get_transcript_by_segments
        [{ text := ("a"), start := 0, duration := 2 },
         { text := ("b"), start := 3, duration := 1 },
         { text := ("c"), start := 12, duration := 1 }] 5 =
      Except.ok [{ start := 0, text := (" a b"), segEnd := 5 },
                 { start := 10, text := ("c"), segEnd := 15 }] := by
  norm_num [get_transcript_by_segments, buildSegments, ratFloor_eq]
  decide

/-- C3 counterexample: `segment_length = 0` does not produce an
`InvalidArgument` failure: on the empty cue list the code returns the
empty segment sequence, and on a cue list with a cue at start 0 it raises
`ZeroDivisionError`. -/
theorem C3_counterexample :
    get_transcript_by_segments [] 0 = Except.ok [] ∧
      get_transcript_by_segments [{ text := ("a"), start := 0, duration := 1 }] 0 =
        Except.error PyError.zeroDivisionError :=
  ⟨rfl, rfl⟩

lemma zero_length_aux :
    ∀ (ts : List Cue) (segs : List Segment) (cur : Segment),
      Segment.segEnd cur = 0 → (∃ c ∈ ts, 0 ≤ Cue.start c) →
      buildSegments 0 ts segs cur = Except.error PyError.zeroDivisionError := by
  intro ts
  induction ts with
  | nil =>
    intro segs cur _ hex
    simp at hex
  | cons c cs ih =>
    intro segs cur hend hex
    by_cases habs : c.start < cur.segEnd
    · have hnext : ∃ d ∈ cs, 0 ≤ Cue.start d := by
        obtain ⟨d, hd, hd0⟩ := hex
        rcases List.mem_cons.mp hd with hd | hd
        · subst hd
          rw [hend] at habs
          exact absurd hd0 (not_le.mpr habs)
        · exact ⟨d, hd, hd0⟩
      simp only [buildSegments, if_pos habs]
      exact ih segs _ hend hnext
    · simp [buildSegments, habs]

/-- C3 (amended): the code performs no validation of `segment_length`.
With `segment_length = 0`, as soon as some cue has a non-negative start
the scan reaches the bucket-advance branch and raises `ZeroDivisionError`
(never `InvalidArgument`); the empty cue list returns `[]`. -/
theorem C3_zero_segment_length (ts : List Cue) (hex : ∃ c ∈ ts, 0 ≤ Cue.start c) :
    get_transcript_by_segments ts 0 = Except.error PyError.zeroDivisionError :=
  zero_length_aux ts [] _ rfl hex

/-- C3 witness: the amended theorem applied to a one-cue list. -/
theorem C3_witness :
    get_transcript_by_segments [{ text := ("a"), start := 0, duration := 1 }] 0 =
      Except.error PyError.zeroDivisionError :=
  C3_zero_segment_length _ ⟨{ text := ("a"), start := 0, duration := 1 }, by decide, by decide⟩

lemma gmtime_hms (t : ℤ) : strftimeHMS (gmtime t) =
    two_digit ((Int.emod t 86400).toNat / 3600) ++ (":") ++
      two_digit ((Int.emod t 86400).toNat % 3600 / 60) ++ (":") ++
      two_digit ((Int.emod t 86400).toNat % 60) := by
  simp only [strftimeHMS, gmtime]
  rw [show (3600:ℕ) = 60 * 60 from rfl, Nat.mod_mul_right_div_self]

/-- C9: with `include_timestamps = true` the renderer produces, for every
item sequence, exactly the lines `[HH:MM:SS] text` (zero-padded, from the
integer-seconds floor of `start` wrapped modulo 24 hours) joined by
newlines, as the specification words it; in particular
`{start: 65, text: "hello"}` renders as `"[00:01:05] hello"`. -/
theorem C9_timestamp_rendering :
    (∀ items : List TextItem, get_transcript_text items true = render_timestamps_spec items) ∧
      get_transcript_text [{ text := ("hello"), start := 65 }] true = ("[00:01:05] hello") := by
  constructor
  · intro items
    simp [get_transcript_text, render_timestamps_spec, gmtime_hms, ratFloor_eq,
      String.append_assoc]
  · rfl

/-- C10: the three agent tools catch every collaborator failure: whatever
the outcomes of the video-id extraction, the transcript fetch, the
segmentation and the search are, each tool returns a dictionary whose
`status` is `"success"`, or `"error"` together with an `error_message`. -/
theorem C10_agent_tools_total :
    ∀ (extract : Except PyError String) (fetch : Except PyError (List Cue))
      (language : String) (L : ℤ) (search : Except PyError (List Video × Option String)),
      wellFormedResult (agent_get_transcript extract fetch language) ∧
        wellFormedResult (agent_get_transcript_by_segments extract fetch language L) ∧
        wellFormedResult (agent_search_youtube_videos search) := by
  intro extract fetch language L search
  refine ⟨?_, ?_, ?_⟩
  · cases extract with
    | error e => exact Or.inr ⟨rfl, ⟨_, rfl⟩⟩
    | ok vid =>
      cases fetch with
      | error e => exact Or.inr ⟨rfl, ⟨_, rfl⟩⟩
      | ok td => exact Or.inl rfl
  · cases extract with
    | error e => exact Or.inr ⟨rfl, ⟨_, rfl⟩⟩
    | ok vid =>
      cases fetch with
      | error e => exact Or.inr ⟨rfl, ⟨_, rfl⟩⟩
      | ok td =>
        cases hseg : get_transcript_by_segments td L with
        | error e =>
          simp only [agent_get_transcript_by_segments, hseg]
          exact Or.inr ⟨rfl, ⟨_, rfl⟩⟩
        | ok segments =>
          simp only [agent_get_transcript_by_segments, hseg]
          exact Or.inl rfl
  · cases search with
    | error e => exact Or.inr ⟨rfl, ⟨_, rfl⟩⟩
    | ok p => exact Or.inl rfl

lemma buildSegments_duration_free (L : ℤ) :
    ∀ (ts us : List Cue) (segs : List Segment) (cur : Segment),
      ts.map (fun c => (Cue.text c, Cue.start c)) = us.map (fun c => (Cue.text c, Cue.start c)) →
      buildSegments L ts segs cur = buildSegments L us segs cur := by
  intro ts
  induction ts with
  | nil =>
    intro us segs cur h
    cases us with
    | nil => rfl
    | cons d ds => simp at h
  | cons c cs ih =>
    intro us segs cur h
    cases us with
    | nil => simp at h
    | cons d ds =>
      simp only [List.map_cons, List.cons.injEq, Prod.mk.injEq] at h
      obtain ⟨⟨ht, hs⟩, htl⟩ := h
      simp only [buildSegments, ht, hs]
      split_ifs with h1 h2 h3
      · exact ih ds segs _ htl
      · rfl
      · exact ih ds _ _ htl
      · exact ih ds _ _ htl

/-- C4: the segmentation never reads cue durations: two cue lists agreeing
pointwise on text and start (durations arbitrary) yield identical results
for the same positive segment length; in particular a cue reaching past
the current bucket's end via its duration is still folded whole into that
bucket. -/
theorem C4_duration_independence (ts us : List Cue) (L : ℤ) (hL : 0 < L)
    (h : ts.map (fun c => (Cue.text c, Cue.start c)) =
      us.map (fun c => (Cue.text c, Cue.start c))) :
    get_transcript_by_segments ts L = get_transcript_by_segments us L :=
  buildSegments_duration_free L ts us [] _ h

/-- C4 witness: a duration reaching far past the bucket end changes
nothing. -/
theorem C4_witness :
    (0:ℤ) < 5 ∧
      get_transcript_by_segments [{ text := ("a"), start := 0, duration := 2 }] 5 =
        get_transcript_by_segments [{ text := ("a"), start := 0, duration := 1000 }] 5 :=
  ⟨by decide, C4_duration_independence _ _ 5 (by decide) (by decide)⟩

/-- C5: a cue with `start = k*L + r` (`0 ≤ r < L`) that is not absorbed
into the still-open segment opens a new segment with `start = k*L` and
`end = k*L + L`, aligned to the global grid. -/
theorem C5_grid_alignment (L k : ℤ) (r : ℚ) (c : Cue) (ts : List Cue)
    (segs : List Segment) (cur : Segment) (hL : 0 < L) (hr : 0 ≤ r) (hrL : r < (L:ℚ))
    (hstart : Cue.start c = (k:ℚ) * (L:ℚ) + r) (habs : ¬ Cue.start c < Segment.segEnd cur) :
    buildSegments L (c :: ts) segs cur =
      buildSegments L ts (if Segment.text cur ≠ ("") then segs ++ [cur] else segs)
        { start := (k:ℚ) * (L:ℚ), text := Cue.text c, segEnd := (k:ℚ) * (L:ℚ) + (L:ℚ) } := by
  have hL0 : L ≠ 0 := ne_of_gt hL
  have hfl : Rat.floor (Cue.start c / (L:ℚ)) = k := by
    rw [hstart]
    exact floor_grid L k r hL hr hrL
  simp only [buildSegments, if_neg habs, if_neg hL0, hfl]

/-- C5 witness: cue at start 12 with L = 5 (k = 2, r = 2) opens the bucket
`[10, 15)`. -/
theorem C5_witness :
    buildSegments 5 [{ text := ("c"), start := 12, duration := 1 }] []
        { start := 0, text := (" a b"), segEnd := 5 } =
      buildSegments 5 [] [{ start := 0, text := (" a b"), segEnd := 5 }]
        { start := 10, text := ("c"), segEnd := 15 } := by
  have h := C5_grid_alignment 5 2 2 { text := ("c"), start := 12, duration := 1 } []
    [] { start := 0, text := (" a b"), segEnd := 5 } (by decide) (by norm_num) (by norm_num)
    (by norm_num) (by norm_num)
  norm_num at h
  exact h

lemma sorted_aux (L : ℤ) (hL : 0 < L) :
    ∀ (ts : List Cue) (segs : List Segment) (cur : Segment) (m : ℤ),
      Segment.segEnd cur = Segment.start cur + (L:ℚ) →
      Segment.start cur = (m:ℚ) * (L:ℚ) →
      List.Pairwise (fun a b => Segment.start a < Segment.start b) segs →
      (∀ s ∈ segs, Segment.start s < Segment.start cur) →
      ∃ out, buildSegments L ts segs cur = Except.ok out ∧
        List.Pairwise (fun a b => Segment.start a < Segment.start b) out := by
  intro ts
  induction ts with
  | nil =>
    intro segs cur m hend hstart hpw hlt
    refine ⟨_, rfl, ?_⟩
    by_cases hcur : Segment.text cur ≠ ("")
    · rw [if_pos hcur, List.pairwise_append]
      refine ⟨hpw, List.pairwise_singleton _ _, ?_⟩
      intro a ha b hb
      rw [List.mem_singleton] at hb
      subst hb
      exact hlt a ha
    · rw [if_neg hcur]
      exact hpw
  | cons c cs ih =>
    intro segs cur m hend hstart hpw hlt
    by_cases habs : c.start < cur.segEnd
    · simp only [buildSegments, if_pos habs]
      exact ih segs _ m hend hstart hpw hlt
    · have hL0 : L ≠ 0 := ne_of_gt hL
      have hLq : (0:ℚ) < (L:ℚ) := by exact_mod_cast hL
      simp only [buildSegments, if_neg habs, if_neg hL0]
      have hge : m + 1 ≤ Rat.floor (Cue.start c / (L:ℚ)) := by
        apply floor_div_ge L (m + 1) (Cue.start c) hL
        push_cast
        rw [add_mul, one_mul, ← hstart]
        rw [hend] at habs
        exact not_lt.mp habs
      have hlt2 : Segment.start cur < (Rat.floor (Cue.start c / (L:ℚ)) : ℚ) * (L:ℚ) := by
        rw [hstart]
        have h1 : ((m:ℚ) + 1) * (L:ℚ) ≤ (Rat.floor (Cue.start c / (L:ℚ)) : ℚ) * (L:ℚ) := by
          apply mul_le_mul_of_nonneg_right _ (le_of_lt hLq)
          exact_mod_cast hge
        nlinarith
      apply ih _ _ (Rat.floor (Cue.start c / (L:ℚ)))
      · rfl
      · rfl
      · by_cases hcur : Segment.text cur ≠ ("")
        · rw [if_pos hcur, List.pairwise_append]
          refine ⟨hpw, List.pairwise_singleton _ _, ?_⟩
          intro a ha b hb
          rw [List.mem_singleton] at hb
          subst hb
          exact hlt a ha
        · rw [if_neg hcur]
          exact hpw
      · intro s hs
        by_cases hcur : Segment.text cur ≠ ("")
        · rw [if_pos hcur] at hs
          rcases List.mem_append.mp hs with hs | hs
          · exact lt_trans (hlt s hs) hlt2
          · rw [List.mem_singleton] at hs
            subst hs
            exact hlt2
        · rw [if_neg hcur] at hs
          exact lt_trans (hlt s hs) hlt2

/-- C6: for a cue list with non-decreasing, non-negative starts and a
positive segment length, the emitted segments' start values are strictly
increasing. -/
theorem C6_strictly_increasing (ts : List Cue) (L : ℤ) (hL : 0 < L)
    (hsorted : List.Chain' (fun a b => Cue.start a ≤ Cue.start b) ts)
    (hnonneg : ∀ c ∈ ts, 0 ≤ Cue.start c) :
    ∃ segs, get_transcript_by_segments ts L = Except.ok segs ∧
      List.Pairwise (fun a b => Segment.start a < Segment.start b) segs := by
  apply sorted_aux L hL ts [] _ 0
  · show (L:ℚ) = 0 + (L:ℚ)
    ring
  · show (0:ℚ) = ((0:ℤ):ℚ) * (L:ℚ)
    push_cast
    ring
  · exact List.Pairwise.nil
  · intro s hs
    simp at hs

/-- C6 witness: two cues in order, landing in two buckets. -/
theorem C6_witness :
    (0:ℤ) < 5 ∧
      List.Chain' (fun a b => Cue.start a ≤ Cue.start b)
        [{ text := ("a"), start := 0, duration := 2 },
         { text := ("c"), start := 12, duration := 1 }] ∧
      (∀ c ∈ [{ text := ("a"), start := 0, duration := 2 },
              { text := ("c"), start := 12, duration := 1 }], 0 ≤ Cue.start c) ∧
      (∃ segs, get_transcript_by_segments
          [{ text := ("a"), start := 0, duration := 2 },
           { text := ("c"), start := 12, duration := 1 }] 5 = Except.ok segs ∧
        List.Pairwise (fun a b => Segment.start a < Segment.start b) segs) :=
  ⟨by decide, by norm_num [List.chain'_cons, List.chain'_singleton], by decide,
    C6_strictly_increasing _ 5 (by decide)
      (by norm_num [List.chain'_cons, List.chain'_singleton]) (by decide)⟩

lemma width_aux (L : ℤ) (hL : L ≠ 0) :
    ∀ (ts : List Cue) (segs : List Segment) (cur : Segment),
      Segment.segEnd cur = Segment.start cur + (L:ℚ) →
      (∀ s ∈ segs, Segment.text s ≠ ("") ∧ Segment.segEnd s = Segment.start s + (L:ℚ)) →
      ∃ out, buildSegments L ts segs cur = Except.ok out ∧
        ∀ s ∈ out, Segment.text s ≠ ("") ∧ Segment.segEnd s = Segment.start s + (L:ℚ) := by
  intro ts
  induction ts with
  | nil =>
    intro segs cur hend hall
    refine ⟨_, rfl, ?_⟩
    by_cases hcur : Segment.text cur ≠ ("")
    · rw [if_pos hcur]
      intro s hs
      rcases List.mem_append.mp hs with hs | hs
      · exact hall s hs
      · rw [List.mem_singleton] at hs
        subst hs
        exact ⟨hcur, hend⟩
    · rw [if_neg hcur]
      exact hall
  | cons c cs ih =>
    intro segs cur hend hall
    by_cases habs : c.start < cur.segEnd
    · simp only [buildSegments, if_pos habs]
      exact ih segs _ hend hall
    · simp only [buildSegments, if_neg habs, if_neg hL]
      apply ih
      · rfl
      · intro s hs
        by_cases hcur : Segment.text cur ≠ ("")
        · rw [if_pos hcur] at hs
          rcases List.mem_append.mp hs with hs | hs
          · exact hall s hs
          · rw [List.mem_singleton] at hs
            subst hs
            exact ⟨hcur, hend⟩
        · rw [if_neg hcur] at hs
          exact hall s hs

/-- C7: for every cue list and positive segment length the segmentation
succeeds and every emitted segment has non-empty text and satisfies
`end = start + segment_length` exactly. -/
theorem C7_width_and_nonempty (ts : List Cue) (L : ℤ) (hL : 0 < L) :
    ∃ segs, get_transcript_by_segments ts L = Except.ok segs ∧
      ∀ s ∈ segs, Segment.text s ≠ ("") ∧ Segment.segEnd s = Segment.start s + (L:ℚ) := by
  apply width_aux L (ne_of_gt hL) ts []
  · show (L:ℚ) = 0 + (L:ℚ)
    ring
  · intro s hs
    simp at hs

/-- C7 witness. -/
theorem C7_witness :
    (0:ℤ) < 5 ∧
      (∃ segs, get_transcript_by_segments
          [{ text := ("a"), start := 0, duration := 2 }] 5 = Except.ok segs ∧
        ∀ s ∈ segs, Segment.text s ≠ ("") ∧
          Segment.segEnd s = Segment.start s + ((5:ℤ):ℚ)) :=
  ⟨by decide, C7_width_and_nonempty _ 5 (by decide)⟩

/-- The per-segment text shape: a segment of the initial bucket
(`start = 0`) is one-or-more `" " ++ text` appends to the empty string;
a segment opened by a cue starts with that cue's text, unprefixed.
`P` abstracts a property of the cues the texts come from. -/
def GoodSeg (P : Cue → Prop) (s : Segment) : Prop :=
  (Segment.start s = 0 → ∃ cs, cs ≠ [] ∧ Segment.text s = appendTexts cs ("")) ∧
    (Segment.start s ≠ 0 → ∃ c cs, P c ∧ Segment.text s = appendTexts cs (Cue.text c))

lemma shape_aux (L : ℤ) (hL : 0 < L) (P : Cue → Prop) :
    ∀ (ts : List Cue) (segs : List Segment) (cur : Segment),
      (∀ c ∈ ts, P c) →
      Segment.segEnd cur = Segment.start cur + (L:ℚ) →
      0 ≤ Segment.start cur →
      ((Segment.start cur = 0 ∧
          ∃ cs, Segment.text cur = appendTexts cs ("") ∧ (Segment.text cur ≠ ("") → cs ≠ [])) ∨
        (Segment.start cur ≠ 0 ∧
          ∃ c cs, P c ∧ Segment.text cur = appendTexts cs (Cue.text c))) →
      (∀ s ∈ segs, GoodSeg P s) →
      ∃ out, buildSegments L ts segs cur = Except.ok out ∧ ∀ s ∈ out, GoodSeg P s := by
  intro ts
  induction ts with
  | nil =>
    intro segs cur hts hend h0 hinv hall
    refine ⟨_, rfl, ?_⟩
    by_cases hc : Segment.text cur ≠ ("")
    · rw [if_pos hc]
      intro s hs
      rcases List.mem_append.mp hs with hs | hs
      · exact hall s hs
      · rw [List.mem_singleton] at hs
        subst hs
        rcases hinv with ⟨hz, cs, htext, hnon⟩ | ⟨hz, c, cs, hP, htext⟩
        · exact ⟨fun _ => ⟨cs, hnon hc, htext⟩, fun hcon => absurd hz hcon⟩
        · exact ⟨fun hcon => absurd hcon hz, fun _ => ⟨c, cs, hP, htext⟩⟩
    · rw [if_neg hc]
      exact hall
  | cons c cs ih =>
    intro segs cur hts hend h0 hinv hall
    have hP : P c := hts c (List.mem_cons_self c cs)
    have hts' : ∀ d ∈ cs, P d := fun d hd => hts d (List.mem_cons_of_mem c hd)
    by_cases habs : Cue.start c < Segment.segEnd cur
    · simp only [buildSegments, if_pos habs]
      refine ih segs { cur with text := Segment.text cur ++ (" ") ++ Cue.text c }
        hts' hend h0 ?_ hall
      rcases hinv with ⟨hz, ds, htext, hnon⟩ | ⟨hz, d, ds, hQ, htext⟩
      · refine Or.inl ⟨hz, ds ++ [c], ?_, ?_⟩
        · show Segment.text cur ++ (" ") ++ Cue.text c = appendTexts (ds ++ [c]) ("")
          rw [appendTexts_append, htext]
          rfl
        · intro _
          simp
      · refine Or.inr ⟨hz, d, ds ++ [c], hQ, ?_⟩
        show Segment.text cur ++ (" ") ++ Cue.text c = appendTexts (ds ++ [c]) (Cue.text d)
        rw [appendTexts_append, htext]
        rfl
    · have hL0 : L ≠ 0 := ne_of_gt hL
      have hLq : (0:ℚ) < (L:ℚ) := by exact_mod_cast hL
      simp only [buildSegments, if_neg habs, if_neg hL0]
      have hk1 : (1 : ℤ) ≤ Rat.floor (Cue.start c / (L:ℚ)) := by
        apply floor_div_ge L 1 (Cue.start c) hL
        push_cast
        rw [one_mul]
        have := not_lt.mp habs
        rw [hend] at this
        linarith
      have hpos : (0:ℚ) < (Rat.floor (Cue.start c / (L:ℚ)) : ℚ) * (L:ℚ) := by
        have h1 : (1:ℚ) * (L:ℚ) ≤ (Rat.floor (Cue.start c / (L:ℚ)) : ℚ) * (L:ℚ) := by
          apply mul_le_mul_of_nonneg_right _ (le_of_lt hLq)
          exact_mod_cast hk1
        nlinarith
      refine ih (if Segment.text cur ≠ ("") then segs ++ [cur] else segs)
        { start := (Rat.floor (Cue.start c / (L:ℚ)) : ℚ) * (L:ℚ), text := Cue.text c,
          segEnd := (Rat.floor (Cue.start c / (L:ℚ)) : ℚ) * (L:ℚ) + (L:ℚ) }
        hts' rfl (le_of_lt hpos) ?_ ?_
      · exact Or.inr ⟨ne_of_gt hpos, c, [], hP, rfl⟩
      · intro s hs
        by_cases hc2 : Segment.text cur ≠ ("")
        · rw [if_pos hc2] at hs
          rcases List.mem_append.mp hs with hs | hs
          · exact hall s hs
          · rw [List.mem_singleton] at hs
            subst hs
            rcases hinv with ⟨hz, ds, htext, hnon⟩ | ⟨hz, d, ds, hQ, htext⟩
            · exact ⟨fun _ => ⟨ds, hnon hc2, htext⟩, fun hcon => absurd hz hcon⟩
            · exact ⟨fun hcon => absurd hcon hz, fun _ => ⟨d, ds, hQ, htext⟩⟩
        · rw [if_neg hc2] at hs
          exact hall s hs

/-- C2 counterexample: the cue `{"c", start 10}` with segment length 5
opens a segment whose text is `"c"`: no space is inserted before the
first cue text of an opened segment, so not every segment's text begins
with a space. -/
theorem C2_counterexample :
    get_transcript_by_segments [{ text := ("c"), start := 10, duration := 1 }] 5 =
        Except.ok [{ start := 10, text := ("c"), segEnd := 15 }] ∧
      Segment.text { start := 10, text := ("c"), segEnd := 15 } ≠
        (" ") ++ Cue.text { text := ("c"), start := 10, duration := 1 } := by
  constructor
  · norm_num [get_transcript_by_segments, buildSegments, ratFloor_eq]
    decide
  · decide

/-- C2 (amended): each emitted segment's text is the `" " ++ text` fold of
its cues, where the unconditional space applies to every cue appended to
the initial bucket (`start = 0`) — whose text therefore begins with a
space — while a segment opened by a cue begins with that cue's own text,
with no inserted leading space. -/
theorem C2_segment_text_shape (ts : List Cue) (L : ℤ) (segs : List Segment) (s : Segment)
    (hL : 0 < L) (hok : get_transcript_by_segments ts L = Except.ok segs) (hs : s ∈ segs) :
    (Segment.start s = 0 →
      (∃ cs, cs ≠ [] ∧ Segment.text s = appendTexts cs ("")) ∧
        ∃ t, Segment.text s = (" ") ++ t) ∧
      (Segment.start s ≠ 0 →
        ∃ c cs, c ∈ ts ∧ Segment.text s = appendTexts cs (Cue.text c)) := by
  obtain ⟨out, hout, hgood⟩ :=
    shape_aux L hL (fun c => c ∈ ts) ts [] { start := 0, text := (""), segEnd := (L:ℚ) }
      (fun c hc => hc) (by show (L:ℚ) = 0 + (L:ℚ); ring) le_rfl
      (Or.inl ⟨rfl, [], rfl, fun h => absurd rfl h⟩) (by intro s hs; simp at hs)
  rw [get_transcript_by_segments] at hok
  rw [hok] at hout
  obtain rfl : segs = out := Except.ok.inj hout
  have hgs := hgood s hs
  constructor
  · intro h0
    obtain ⟨cs, hcs, htext⟩ := hgs.1 h0
    refine ⟨⟨cs, hcs, htext⟩, ?_⟩
    cases cs with
    | nil => exact absurd rfl hcs
    | cons c0 cs' =>
      obtain ⟨t, ht⟩ := appendTexts_acc cs' ((("")) ++ (" ") ++ Cue.text c0)
      refine ⟨Cue.text c0 ++ t, ?_⟩
      rw [htext]
      show appendTexts cs' (("") ++ (" ") ++ Cue.text c0) = (" ") ++ (Cue.text c0 ++ t)
      rw [ht, String.empty_append, String.append_assoc]
  · intro h0
    exact hgs.2 h0

/-- C2 witness: the amended theorem applied to a one-cue transcript whose
single segment is the initial bucket, text `" a"`. -/
theorem C2_witness :
    (0:ℤ) < 5 ∧
      get_transcript_by_segments [{ text := ("a"), start := 0, duration := 2 }] 5 =
        Except.ok [{ start := 0, text := (" a"), segEnd := 5 }] ∧
      ((Segment.start { start := 0, text := (" a"), segEnd := (5:ℚ) } = 0 →
          (∃ cs, cs ≠ [] ∧
            Segment.text { start := 0, text := (" a"), segEnd := (5:ℚ) } = appendTexts cs ("")) ∧
            ∃ t, Segment.text { start := 0, text := (" a"), segEnd := (5:ℚ) } = (" ") ++ t) ∧
        (Segment.start { start := 0, text := (" a"), segEnd := (5:ℚ) } ≠ 0 →
          ∃ c cs, c ∈ [{ text := ("a"), start := 0, duration := 2 }] ∧
            Segment.text { start := 0, text := (" a"), segEnd := (5:ℚ) } =
              appendTexts cs (Cue.text c))) :=
  ⟨by decide, by rfl,
    C2_segment_text_shape [{ text := ("a"), start := 0, duration := 2 }] 5
      [{ start := 0, text := (" a"), segEnd := (5:ℚ) }]
      { start := 0, text := (" a"), segEnd := (5:ℚ) } (by decide) (by rfl) (by decide)⟩

lemma textsInOrder_refl (t : String) : textsInOrder [t] t :=
  ⟨(""), (""), by rw [String.empty_append, String.append_empty], trivial⟩

lemma coverage_aux (L : ℤ) (hL : 0 < L) :
    ∀ (ts : List Cue) (segs : List Segment) (cur : Segment)
      (blocks : List (List Cue)) (curBlock : List Cue),
      (∀ c ∈ ts, Cue.text c ≠ ("")) →
      List.Forall₂ (fun b s => textsInOrder (b.map Cue.text) (Segment.text s)) blocks segs →
      (∀ b ∈ blocks, b ≠ []) →
      textsInOrder (curBlock.map Cue.text) (Segment.text cur) →
      (Segment.text cur = ("") ↔ curBlock = []) →
      ∃ out blocks2, buildSegments L ts segs cur = Except.ok out ∧
        blocks2.flatten = blocks.flatten ++ (curBlock ++ ts) ∧
        (∀ b ∈ blocks2, b ≠ []) ∧
        List.Forall₂ (fun b s => textsInOrder (b.map Cue.text) (Segment.text s)) blocks2 out := by
  intro ts
  induction ts with
  | nil =>
    intro segs cur blocks curBlock hts hrel hne hcur hiff
    by_cases hc : Segment.text cur ≠ ("")
    · refine ⟨segs ++ [cur], blocks ++ [curBlock], ?_, ?_, ?_, ?_⟩
      · show buildSegments L [] segs cur = _
        rw [buildSegments, if_pos hc]
      · simp
      · intro b hb
        rcases List.mem_append.mp hb with hb | hb
        · exact hne b hb
        · rw [List.mem_singleton] at hb
          subst hb
          intro hnil
          exact hc (hiff.mpr hnil)
      · exact List.rel_append hrel (List.Forall₂.cons hcur List.Forall₂.nil)
    · push_neg at hc
      have hnil := hiff.mp hc
      subst hnil
      refine ⟨segs, blocks, ?_, by simp, hne, hrel⟩
      show buildSegments L [] segs cur = _
      rw [buildSegments, if_neg (not_not_intro hc)]
  | cons c cs ih =>
    intro segs cur blocks curBlock hts hrel hne hcur hiff
    have htc : Cue.text c ≠ ("") := hts c (List.mem_cons_self c cs)
    have hts' : ∀ d ∈ cs, Cue.text d ≠ ("") := fun d hd => hts d (List.mem_cons_of_mem c hd)
    by_cases habs : Cue.start c < Segment.segEnd cur
    · simp only [buildSegments, if_pos habs]
      have hcur2 : textsInOrder ((curBlock ++ [c]).map Cue.text)
          (Segment.text cur ++ (" ") ++ Cue.text c) := by
        rw [String.append_assoc, List.map_append]
        exact textsInOrder_append _ _ _ _ hcur
          (by simpa using textsInOrder_single (Cue.text c) (" "))
      have hiff2 : (Segment.text cur ++ (" ") ++ Cue.text c = ("")) ↔ curBlock ++ [c] = [] := by
        constructor
        · intro h
          exact absurd h (str_space_ne_empty _ _)
        · intro h
          simp at h
      obtain ⟨out, blocks2, hbuild, hflat, hne2, hrel2⟩ :=
        ih segs { cur with text := Segment.text cur ++ (" ") ++ Cue.text c }
          blocks (curBlock ++ [c]) hts' hrel hne hcur2 hiff2
      refine ⟨out, blocks2, hbuild, ?_, hne2, hrel2⟩
      rw [hflat]
      simp
    · have hL0 : L ≠ 0 := ne_of_gt hL
      simp only [buildSegments, if_neg habs, if_neg hL0]
      have hiff2 : (Cue.text c = ("")) ↔ ([c] : List Cue) = [] := by
        constructor
        · intro h
          exact absurd h htc
        · intro h
          simp at h
      have hcurNew : textsInOrder (([c] : List Cue).map Cue.text) (Cue.text c) := by
        simpa using textsInOrder_refl (Cue.text c)
      by_cases hc2 : Segment.text cur ≠ ("")
      · rw [if_pos hc2]
        have hrel' := List.rel_append hrel (List.Forall₂.cons hcur List.Forall₂.nil)
        have hne' : ∀ b ∈ blocks ++ [curBlock], b ≠ [] := by
          intro b hb
          rcases List.mem_append.mp hb with hb | hb
          · exact hne b hb
          · rw [List.mem_singleton] at hb
            subst hb
            intro hnil
            exact hc2 (hiff.mpr hnil)
        obtain ⟨out, blocks2, hbuild, hflat, hne2, hrel2⟩ :=
          ih (segs ++ [cur])
            { start := (Rat.floor (Cue.start c / (L:ℚ)) : ℚ) * (L:ℚ), text := Cue.text c,
              segEnd := (Rat.floor (Cue.start c / (L:ℚ)) : ℚ) * (L:ℚ) + (L:ℚ) }
            (blocks ++ [curBlock]) [c] hts' hrel' hne' hcurNew hiff2
        refine ⟨out, blocks2, hbuild, ?_, hne2, hrel2⟩
        rw [hflat]
        simp
      · rw [if_neg hc2]
        push_neg at hc2
        have hnil := hiff.mp hc2
        subst hnil
        obtain ⟨out, blocks2, hbuild, hflat, hne2, hrel2⟩ :=
          ih segs
            { start := (Rat.floor (Cue.start c / (L:ℚ)) : ℚ) * (L:ℚ), text := Cue.text c,
              segEnd := (Rat.floor (Cue.start c / (L:ℚ)) : ℚ) * (L:ℚ) + (L:ℚ) }
            blocks [c] hts' hrel hne hcurNew hiff2
        refine ⟨out, blocks2, hbuild, ?_, hne2, hrel2⟩
        rw [hflat]
        simp

/-- C8 counterexample: a cue with empty text that alone opens a bucket is
dropped entirely — the output is `[]`, so its text is not carried by any
output segment and the coverage property fails as stated for arbitrary
cue lists. -/
theorem C8_counterexample :
    get_transcript_by_segments [{ text := (""), start := 10, duration := 0 }] 5 =
        Except.ok [] ∧
      ¬ CoverageHolds [{ text := (""), start := 10, duration := 0 }] 5 := by
  refine ⟨rfl, ?_⟩
  intro h
  simp only [CoverageHolds, CoverageWitness] at h
  obtain ⟨segs, blocks, hok, hflat, hne, hrel⟩ := h
  have hsegs : segs = [] := by
    have h0 : get_transcript_by_segments [{ text := (""), start := 10, duration := 0 }] 5 =
        Except.ok [] := rfl
    rw [h0] at hok
    exact (Except.ok.inj hok).symm
  subst hsegs
  have hlen := List.Forall₂.length_eq hrel
  simp only [List.length_nil] at hlen
  rw [List.length_eq_zero] at hlen
  subst hlen
  simp at hflat

/-- C8 (amended): for cue lists in non-decreasing start order whose cue
texts are all non-empty, and positive segment length, the cues split into
consecutive non-empty blocks, one per output segment in order, and every
cue's text appears, in input order, within its (unique) segment's text. -/
theorem C8_coverage (ts : List Cue) (L : ℤ) (hL : 0 < L)
    (hsorted : List.Chain' (fun a b => Cue.start a ≤ Cue.start b) ts)
    (htexts : ∀ c ∈ ts, Cue.text c ≠ ("")) :
    CoverageHolds ts L := by
  obtain ⟨out, blocks2, hbuild, hflat, hne2, hrel2⟩ :=
    coverage_aux L hL ts [] { start := 0, text := (""), segEnd := (L:ℚ) } [] []
      htexts List.Forall₂.nil (by intro b hb; simp at hb) trivial (by simp)
  exact ⟨out, blocks2, hbuild, by simpa using hflat, hne2, hrel2⟩

/-- C8 witness: the amended theorem applied to a one-cue transcript. -/
theorem C8_witness :
    (0:ℤ) < 5 ∧
      (∀ c ∈ [{ text := ("a"), start := 0, duration := 2 }], Cue.text c ≠ ("")) ∧
      CoverageHolds [{ text := ("a"), start := 0, duration := 2 }] 5 :=
  ⟨by decide, by decide, C8_coverage _ 5 (by decide) (by simp) (by decide)⟩

end YT
